import Mathlib

/-!
# Verification of `solveKnapsack` (src/src/KnapsackOpenHouse.tsx)

Shallow embedding of the 0-1 knapsack solver of the repository.  The
source function is:

```ts
function solveKnapsack(items: Item[], capacity: number) {
  const n = items.length;
  const dp: number[][] = Array.from({ length: n + 1 }, () => Array(capacity + 1).fill(0));
  for (let i = 1; i <= n; i++) {
    const { weight: w, value: v } = items[i - 1];
    for (let c = 0; c <= capacity; c++) {
      if (w <= c) {
        dp[i][c] = Math.max(dp[i - 1][c], dp[i - 1][c - w] + v);
      } else {
        dp[i][c] = dp[i - 1][c];
      }
    }
  }
  let c = capacity;
  const chosen: string[] = [];
  for (let i = n; i >= 1; i--) {
    if (dp[i][c] !== dp[i - 1][c]) {
      chosen.push(items[i - 1].id);
      c -= items[i - 1].weight;
    }
  }
  chosen.reverse();
  return { bestValue: dp[n][capacity], chosenIds: new Set(chosen), table: dp };
}
```

Weights, values and the capacity are embedded as `Nat` (the documented
preconditions require them non-negative); item identities as `String`.
The row-by-row fill of `dp` becomes `buildTable` (row `i` is obtained
from row `i - 1` by `stepRow`, exactly the inner loop), and the
backward reconstruction becomes `tableWalk`, reading the finished
table.  `chosen.reverse()` makes the returned id list ascend in item
index; `new Set(chosen)` keeps, in insertion order, the first
occurrence of each id (`insertionDedup`), so `chosenIds` is that
deduplicated ascending list.
-/

structure Item where
  id : String
  name : String
  weight : Nat
  value : Nat
  emoji : String
deriving Repr, DecidableEq

instance : Inhabited Item := ⟨⟨"", "", 0, 0, ""⟩⟩

open scoped List

/-- One pass of the inner loop: row `i` of `dp` computed from row
`i - 1` (`prev`), for the item `it = items[i-1]`.  Cell `c` ranges over
`0 .. capacity`. -/
def stepRow (prev : List Nat) (it : Item) (capacity : Nat) : List Nat :=
  (List.range (capacity + 1)).map (fun c =>
    if it.weight ≤ c then max (prev.getD c 0) (prev.getD (c - it.weight) 0 + it.value)
    else prev.getD c 0)

/-- Rows `i₀ .. n` of the table, given row `i₀` (`prev`) and the items
`items[i₀ ..]` still to process. -/
def tableRows (capacity : Nat) : List Item → List Nat → List (List Nat)
  | [], prev => [prev]
  | it :: rest, prev => prev :: tableRows capacity rest (stepRow prev it capacity)

/-- The `dp` table of the source: `n + 1` rows of `capacity + 1` cells,
row 0 all zeros, row `i` from row `i - 1` by the recurrence. -/
def buildTable (items : List Item) (capacity : Nat) : List (List Nat) :=
  tableRows capacity items (List.replicate (capacity + 1) 0)

/-- The backward reconstruction loop, reading the finished table:
at `(i + 1, c)`, item `items[i]` is recorded exactly when
`dp[i+1][c] != dp[i][c]`, and then `c` drops by its weight.  The result
is in ascending item order (the source pushes descending and then
reverses). -/
def tableWalk (items : List Item) (table : List (List Nat)) : Nat → Nat → List String
  | 0, _ => []
  | i + 1, c =>
    let it := items.getD i default
    if (table.getD (i + 1) []).getD c 0 ≠ (table.getD i []).getD c 0 then
      tableWalk items table i (c - it.weight) ++ [it.id]
    else
      tableWalk items table i c

/-- Adding each value of `l` in turn to a set already holding `seen`:
a value is kept only if not present yet. -/
def insertionDedupAux (seen : List String) : List String → List String
  | [] => []
  | x :: xs =>
    if x ∈ seen then insertionDedupAux seen xs
    else x :: insertionDedupAux (x :: seen) xs

/-- `new Set(l)` of JavaScript, as the list of its elements in
iteration order: the first occurrence of each value, in insertion
order. -/
def insertionDedup (l : List String) : List String := insertionDedupAux [] l

structure SolveResult where
  bestValue : Nat
  chosenIds : List String
  table : List (List Nat)
deriving Repr, DecidableEq

/-- `solveKnapsack` of the source. -/
def solveKnapsack (items : List Item) (capacity : Nat) : SolveResult :=
  let n := items.length
  let dp := buildTable items capacity
  { bestValue := (dp.getD n []).getD capacity 0
    chosenIds := insertionDedup (tableWalk items dp n capacity)
    table := dp }

/-!
## The mathematical recurrence

`dpVal items i c` is the value the cell `dp[i][c]` holds: the defining
recurrence of the fill loop, stated as a recursion on `i`.  The proofs
connect `buildTable` to it, and it to the optimum over subsets.
-/

/-- The recurrence the fill loop implements:
`dpVal items 0 c = 0`, and `dpVal items (i+1) c` extends with item
`items[i]`. -/
def dpVal (items : List Item) : Nat → Nat → Nat
  | 0, _ => 0
  | i + 1, c =>
    let it := items.getD i default
    if it.weight ≤ c then
      max (dpVal items i c) (dpVal items i (c - it.weight) + it.value)
    else
      dpVal items i c

/-- The reconstruction walk stated against the recurrence (rather than
against the stored table): the items it selects, ascending. -/
def chosenItems (items : List Item) : Nat → Nat → List Item
  | 0, _ => []
  | i + 1, c =>
    let it := items.getD i default
    if dpVal items (i + 1) c ≠ dpVal items i c then
      chosenItems items i (c - it.weight) ++ [it]
    else
      chosenItems items i c

/-- Total weight of a list of items. -/
def weightSum (l : List Item) : Nat := (l.map Item.weight).sum

/-- Total value of a list of items. -/
def valueSum (l : List Item) : Nat := (l.map Item.value).sum

/-- The specified optimum: the maximum, over all subsets (sublists) of
`items` whose total weight is at most `cap`, of the total value. -/
def maxFeasibleValue (items : List Item) (cap : Nat) : Nat :=
  ((items.sublists.filter (fun S => weightSum S ≤ cap)).map valueSum).foldr max 0

/-!
## Table lemmas: `buildTable` computes `dpVal`
-/

theorem stepRow_length (prev : List Nat) (it : Item) (cap : Nat) :
    (stepRow prev it cap).length = cap + 1 := by
  simp [stepRow]

theorem stepRow_getD (prev : List Nat) (it : Item) {cap c : Nat} (hc : c ≤ cap) :
    (stepRow prev it cap).getD c 0 =
      if it.weight ≤ c then max (prev.getD c 0) (prev.getD (c - it.weight) 0 + it.value)
      else prev.getD c 0 := by
  have hlt : c < cap + 1 := Nat.lt_succ_of_le hc
  simp [stepRow, List.getElem?_range hlt]

theorem tableRows_length (cap : Nat) (l : List Item) (prev : List Nat) :
    (tableRows cap l prev).length = l.length + 1 := by
  induction l generalizing prev with
  | nil => rfl
  | cons it rest ih => simp [tableRows, ih]

theorem tableRows_getD (items : List Item) (cap : Nat) :
    ∀ (l : List Item) (i0 : Nat) (prev : List Nat),
      l = items.drop i0 →
      (∀ c, c ≤ cap → prev.getD c 0 = dpVal items i0 c) →
      ∀ j c, j ≤ l.length → c ≤ cap →
        ((tableRows cap l prev).getD j []).getD c 0 = dpVal items (i0 + j) c := by
  intro l
  induction l with
  | nil =>
    intro i0 prev _ hprev j c hj hc
    have hj0 : j = 0 := by simpa using hj
    subst hj0
    simpa [tableRows] using hprev c hc
  | cons it rest ih =>
    intro i0 prev hdrop hprev j c hj hc
    match j with
    | 0 => simpa [tableRows] using hprev c hc
    | j + 1 =>
      have h0 : items[i0]? = some it := by
        have h0' : (items.drop i0)[0]? = some it := by rw [← hdrop]; simp
        rwa [List.getElem?_drop, Nat.add_zero] at h0'
      have hrest : rest = items.drop (i0 + 1) := by
        have := congrArg List.tail hdrop
        simpa [List.tail_drop] using this
      have hstep : ∀ c, c ≤ cap → (stepRow prev it cap).getD c 0 = dpVal items (i0 + 1) c := by
        intro c hc
        rw [stepRow_getD prev it hc]
        have h1 := hprev c hc
        have h2 := hprev (c - it.weight) (le_trans (Nat.sub_le _ _) hc)
        simp only [List.getD_eq_getElem?_getD] at h1 h2
        simp [dpVal, h0, h1, h2]
      have hmain := ih (i0 + 1) (stepRow prev it cap) hrest hstep j c
        (by simpa using hj) hc
      have harith : i0 + (j + 1) = (i0 + 1) + j := by omega
      rw [harith]
      rw [show tableRows cap (it :: rest) prev
            = prev :: tableRows cap rest (stepRow prev it cap) from rfl]
      simpa using hmain

theorem buildTable_getD (items : List Item) {cap i c : Nat}
    (hi : i ≤ items.length) (hc : c ≤ cap) :
    ((buildTable items cap).getD i []).getD c 0 = dpVal items i c := by
  have := tableRows_getD items cap items 0 (List.replicate (cap + 1) 0) (by simp)
    (fun c hc => by simp [List.getElem?_replicate_of_lt (Nat.lt_succ_of_le hc), dpVal])
    i c hi hc
  simpa [buildTable] using this

theorem buildTable_length (items : List Item) (cap : Nat) :
    (buildTable items cap).length = items.length + 1 := by
  simp [buildTable, tableRows_length]

theorem tableRows_row_length (cap : Nat) :
    ∀ (l : List Item) (prev : List Nat), prev.length = cap + 1 →
      ∀ j ≤ l.length, ((tableRows cap l prev).getD j []).length = cap + 1 := by
  intro l
  induction l with
  | nil =>
    intro prev hprev j hj
    have hj0 : j = 0 := by simpa using hj
    subst hj0
    simpa [tableRows] using hprev
  | cons it rest ih =>
    intro prev hprev j hj
    match j with
    | 0 => simpa [tableRows] using hprev
    | j + 1 =>
      have := ih (stepRow prev it cap) (stepRow_length prev it cap) j (by simpa using hj)
      simpa [tableRows] using this

theorem buildTable_row_length (items : List Item) (cap : Nat) {i : Nat}
    (hi : i ≤ items.length) :
    ((buildTable items cap).getD i []).length = cap + 1 :=
  tableRows_row_length cap items (List.replicate (cap + 1) 0) (by simp) i hi

/-!
## Properties of the recurrence `dpVal`
-/

theorem dpVal_succ (items : List Item) (i c : Nat) :
    dpVal items (i + 1) c =
      if (items.getD i default).weight ≤ c then
        max (dpVal items i c)
          (dpVal items i (c - (items.getD i default).weight) + (items.getD i default).value)
      else dpVal items i c := rfl

theorem chosenItems_succ (items : List Item) (i c : Nat) :
    chosenItems items (i + 1) c =
      if dpVal items (i + 1) c ≠ dpVal items i c then
        chosenItems items i (c - (items.getD i default).weight) ++ [items.getD i default]
      else chosenItems items i c := rfl

theorem dpVal_le_succ (items : List Item) (i c : Nat) :
    dpVal items i c ≤ dpVal items (i + 1) c := by
  rw [dpVal_succ]
  by_cases h : (items.getD i default).weight ≤ c
  · rw [if_pos h]
    exact le_max_left _ _
  · rw [if_neg h]

theorem dpVal_mono_cap (items : List Item) (i : Nat) :
    ∀ {c₁ c₂ : Nat}, c₁ ≤ c₂ → dpVal items i c₁ ≤ dpVal items i c₂ := by
  induction i with
  | zero => intro c₁ c₂ _; simp [dpVal]
  | succ i ih =>
    intro c₁ c₂ hc
    by_cases h1 : (items.getD i default).weight ≤ c₁
    · have h2 : (items.getD i default).weight ≤ c₂ := le_trans h1 hc
      simp only [dpVal, h1, h2, if_true]
      exact max_le_max (ih hc) (Nat.add_le_add_right (ih (Nat.sub_le_sub_right hc _)) _)
    · by_cases h2 : (items.getD i default).weight ≤ c₂
      · simp only [dpVal, h1, h2, if_true, if_false]
        exact le_max_of_le_left (ih hc)
      · simp only [dpVal, h1, h2, if_false]
        exact ih hc

/-- When the walk records item `i` (`dpVal (i+1) c ≠ dpVal i c`), the
include branch was strictly better, the item fits, and the cell equals
"include". -/
theorem dpVal_succ_ne_elim (items : List Item) {i c : Nat}
    (h : dpVal items (i + 1) c ≠ dpVal items i c) :
    (items.getD i default).weight ≤ c ∧
      dpVal items (i + 1) c
        = dpVal items i (c - (items.getD i default).weight) + (items.getD i default).value := by
  by_cases hw : (items.getD i default).weight ≤ c
  · refine ⟨hw, ?_⟩
    rw [dpVal_succ, if_pos hw] at h ⊢
    rcases max_choice (dpVal items i c)
      (dpVal items i (c - (items.getD i default).weight) + (items.getD i default).value) with
      hmax | hmax
    · exact absurd hmax h
    · exact hmax
  · exact absurd (by rw [dpVal_succ, if_neg hw]) h

/-!
## The reconstruction: weight bound, value identity, sublist shape
-/

theorem weightSum_append (l₁ l₂ : List Item) :
    weightSum (l₁ ++ l₂) = weightSum l₁ + weightSum l₂ := by
  simp [weightSum]

theorem valueSum_append (l₁ l₂ : List Item) :
    valueSum (l₁ ++ l₂) = valueSum l₁ + valueSum l₂ := by
  simp [valueSum]

theorem chosenItems_spec (items : List Item) :
    ∀ i c, weightSum (chosenItems items i c) ≤ c ∧
      valueSum (chosenItems items i c) = dpVal items i c := by
  intro i
  induction i with
  | zero => intro c; simp [chosenItems, dpVal, weightSum, valueSum]
  | succ i ih =>
    intro c
    by_cases h : dpVal items (i + 1) c ≠ dpVal items i c
    · obtain ⟨hw, hval⟩ := dpVal_succ_ne_elim items h
      have hrec := ih (c - (items.getD i default).weight)
      rw [chosenItems_succ, if_pos h]
      constructor
      · rw [weightSum_append]
        have hsingle : weightSum [items.getD i default] = (items.getD i default).weight := by
          simp [weightSum]
        rw [hsingle]
        omega
      · rw [valueSum_append, hrec.2, hval]
        simp [valueSum]
    · push_neg at h
      have hrec := ih c
      rw [chosenItems_succ, if_neg (by simpa using h)]
      exact ⟨hrec.1, hrec.2.trans h.symm⟩

theorem chosenItems_sublist (items : List Item) :
    ∀ i, i ≤ items.length → ∀ c, chosenItems items i c <+ items.take i := by
  intro i
  induction i with
  | zero => intro _ c; simp [chosenItems]
  | succ i ih =>
    intro hi c
    have hi' : i ≤ items.length := Nat.le_of_succ_le hi
    have hilt : i < items.length := hi
    have htake : items.take (i + 1) = items.take i ++ [items.getD i default] := by
      rw [List.take_succ, List.getElem?_eq_getElem hilt]
      simp [List.getD_eq_getElem?_getD, List.getElem?_eq_getElem hilt]
    rw [chosenItems_succ, htake]
    by_cases h : dpVal items (i + 1) c ≠ dpVal items i c
    · rw [if_pos h]
      exact (ih hi' _).append (List.Sublist.refl _)
    · rw [if_neg h]
      exact (ih hi' c).trans (List.sublist_append_left _ _)

/-- Every feasible subset of the first `i` items is bounded by the cell
value: the recurrence is an upper bound. -/
theorem dpVal_ge_subsets (items : List Item) :
    ∀ i, i ≤ items.length →
      ∀ c S, S <+ items.take i → weightSum S ≤ c → valueSum S ≤ dpVal items i c := by
  intro i
  induction i with
  | zero =>
    intro _ c S hS _
    have : S = [] := by simpa using hS
    simp [this, valueSum, dpVal]
  | succ i ih =>
    intro hi c S hS hw
    have hi' : i ≤ items.length := Nat.le_of_succ_le hi
    have hilt : i < items.length := hi
    have htake : items.take (i + 1) = items.take i ++ [items.getD i default] := by
      rw [List.take_succ, List.getElem?_eq_getElem hilt]
      simp [List.getD_eq_getElem?_getD, List.getElem?_eq_getElem hilt]
    rw [htake] at hS
    rcases List.sublist_append_iff.mp hS with ⟨S₁, S₂, hSeq, hS₁, hS₂⟩
    subst hSeq
    have hS₂' : S₂ = [] ∨ S₂ = [items.getD i default] := by
      cases hS₂ with
      | cons _ h => left; exact List.sublist_nil.mp h
      | cons₂ _ h => right; rw [List.sublist_nil.mp h]
    rcases hS₂' with h2 | h2
    · subst h2
      rw [List.append_nil] at hw ⊢
      exact le_trans (ih hi' c S₁ hS₁ hw) (dpVal_le_succ items i c)
    · subst h2
      rw [weightSum_append] at hw
      have hwit : weightSum [items.getD i default] = (items.getD i default).weight := by
        simp [weightSum]
      rw [hwit] at hw
      have hwc : (items.getD i default).weight ≤ c := le_trans (Nat.le_add_left _ _) hw
      have hw1 : weightSum S₁ ≤ c - (items.getD i default).weight := by omega
      have hval := ih hi' (c - (items.getD i default).weight) S₁ hS₁ hw1
      rw [dpVal_succ, if_pos hwc]
      refine le_trans ?_ (le_max_right _ _)
      rw [valueSum_append]
      have : valueSum [items.getD i default] = (items.getD i default).value := by
        simp [valueSum]
      rw [this]
      omega

/-!
## The specified optimum `maxFeasibleValue`
-/

theorem le_foldr_max {a : Nat} {l : List Nat} (h : a ∈ l) : a ≤ l.foldr max 0 := by
  induction l with
  | nil => cases h
  | cons b l ih =>
    rcases List.mem_cons.mp h with rfl | h'
    · exact le_max_left _ _
    · exact le_trans (ih h') (le_max_right _ _)

theorem foldr_max_mem_or_zero (l : List Nat) : l.foldr max 0 = 0 ∨ l.foldr max 0 ∈ l := by
  induction l with
  | nil => left; rfl
  | cons b l ih =>
    rcases max_choice b (l.foldr max 0) with h | h
    · right; rw [List.foldr_cons, h]; exact List.mem_cons_self _ _
    · rw [List.foldr_cons, h]
      rcases ih with h0 | hm
      · left; exact h0
      · right; exact List.mem_cons_of_mem _ hm

theorem le_maxFeasibleValue (items : List Item) (cap : Nat) {S : List Item}
    (hS : S <+ items) (hw : weightSum S ≤ cap) :
    valueSum S ≤ maxFeasibleValue items cap := by
  apply le_foldr_max
  apply List.mem_map_of_mem
  rw [List.mem_filter]
  exact ⟨List.mem_sublists.mpr hS, by simpa using hw⟩

theorem maxFeasibleValue_attained (items : List Item) (cap : Nat) :
    ∃ S, S <+ items ∧ weightSum S ≤ cap ∧ valueSum S = maxFeasibleValue items cap := by
  rcases foldr_max_mem_or_zero
      ((items.sublists.filter (fun S => weightSum S ≤ cap)).map valueSum) with h0 | hm
  · refine ⟨[], List.nil_sublist _, ?_, ?_⟩
    · simp [weightSum]
    · rw [maxFeasibleValue, h0]; simp [valueSum]
  · rcases List.mem_map.mp hm with ⟨S, hSmem, hSval⟩
    rw [List.mem_filter] at hSmem
    exact ⟨S, List.mem_sublists.mp hSmem.1, by simpa using hSmem.2, hSval⟩

/-- The central identity: cell `(i, c)` of the recurrence is the optimum
over subsets of the first `i` items under budget `c`. -/
theorem dpVal_eq_maxFeasibleValue (items : List Item) {i : Nat} (hi : i ≤ items.length)
    (c : Nat) : dpVal items i c = maxFeasibleValue (items.take i) c := by
  apply le_antisymm
  · rcases chosenItems_spec items i c with ⟨hw, hv⟩
    rw [← hv]
    exact le_maxFeasibleValue _ _ (chosenItems_sublist items i hi c) hw
  · rcases maxFeasibleValue_attained (items.take i) c with ⟨S, hS, hw, hv⟩
    rw [← hv]
    exact dpVal_ge_subsets items i hi c S hS hw

/-!
## The returned reconstruction reads the table
-/

theorem tableWalk_eq_chosenItems (items : List Item) (cap : Nat) :
    ∀ i, i ≤ items.length → ∀ c, c ≤ cap →
      tableWalk items (buildTable items cap) i c = (chosenItems items i c).map Item.id := by
  intro i
  induction i with
  | zero => intro _ c _; simp [tableWalk, chosenItems]
  | succ i ih =>
    intro hi c hc
    have hi' : i ≤ items.length := Nat.le_of_succ_le hi
    have hcell1 : ((buildTable items cap).getD (i + 1) []).getD c 0 = dpVal items (i + 1) c :=
      buildTable_getD items hi hc
    have hcell0 : ((buildTable items cap).getD i []).getD c 0 = dpVal items i c :=
      buildTable_getD items hi' hc
    rw [show tableWalk items (buildTable items cap) (i + 1) c
          = if ((buildTable items cap).getD (i + 1) []).getD c 0
                ≠ ((buildTable items cap).getD i []).getD c 0 then
              tableWalk items (buildTable items cap) i (c - (items.getD i default).weight)
                ++ [(items.getD i default).id]
            else tableWalk items (buildTable items cap) i c from rfl]
    rw [hcell1, hcell0, chosenItems_succ]
    by_cases h : dpVal items (i + 1) c ≠ dpVal items i c
    · rw [if_pos h, if_pos h, List.map_append,
        ih hi' (c - (items.getD i default).weight) (le_trans (Nat.sub_le _ _) hc)]
      rfl
    · rw [if_neg h, if_neg h, ih hi' c hc]

/-- The first `i` cells of the recurrence only look at the first `i`
items: appending items on the right leaves them unchanged. -/
theorem dpVal_append (items extra : List Item) :
    ∀ i, i ≤ items.length → ∀ c, dpVal (items ++ extra) i c = dpVal items i c := by
  intro i
  induction i with
  | zero => intro _ c; rfl
  | succ i ih =>
    intro hi c
    have hi' : i ≤ items.length := Nat.le_of_succ_le hi
    have hget : (items ++ extra).getD i default = items.getD i default := by
      simp only [List.getD_eq_getElem?_getD]
      rw [List.getElem?_append_left hi]
    rw [dpVal_succ, dpVal_succ, hget, ih hi', ih hi']

theorem mem_insertionDedupAux (x : String) :
    ∀ (l seen : List String), x ∈ insertionDedupAux seen l ↔ x ∈ l ∧ x ∉ seen := by
  intro l
  induction l with
  | nil => intro seen; simp [insertionDedupAux]
  | cons a xs ih =>
    intro seen
    by_cases ha : a ∈ seen
    · rw [show insertionDedupAux seen (a :: xs) = insertionDedupAux seen xs by
        simp [insertionDedupAux, ha]]
      rw [ih seen]
      constructor
      · exact fun ⟨h1, h2⟩ => ⟨List.mem_cons_of_mem _ h1, h2⟩
      · rintro ⟨h1, h2⟩
        rcases List.mem_cons.mp h1 with rfl | h1'
        · exact absurd ha h2
        · exact ⟨h1', h2⟩
    · rw [show insertionDedupAux seen (a :: xs) = a :: insertionDedupAux (a :: seen) xs by
        simp [insertionDedupAux, ha]]
      rw [List.mem_cons, ih (a :: seen)]
      by_cases hx : x = a
      · subst hx
        simp [ha]
      · simp [hx, List.mem_cons]

theorem mem_insertionDedup (x : String) (l : List String) :
    x ∈ insertionDedup l ↔ x ∈ l := by
  rw [insertionDedup, mem_insertionDedupAux]
  simp

/-!
## From chosen ids back to items: the UI's filter
-/

/-- The weight the UI computes for a set of ids:
`items.filter((i) => ids.has(i.id))` summed by weight. -/
def chosenWeight (items : List Item) (ids : List String) : Nat :=
  weightSum (items.filter (fun it => decide (it.id ∈ ids)))

/-- The value the UI computes for a set of ids. -/
def chosenValue (items : List Item) (ids : List String) : Nat :=
  valueSum (items.filter (fun it => decide (it.id ∈ ids)))

/-- With pairwise-distinct ids, filtering `items` by membership of the
id in a sublist `S`'s ids recovers exactly `S`. -/
theorem filter_mem_ids (items : List Item) (hnd : (items.map Item.id).Nodup)
    {S : List Item} (hS : S <+ items) :
    items.filter (fun it => decide (it.id ∈ S.map Item.id)) = S := by
  induction hS with
  | slnil => rfl
  | @cons S l a hsub ih =>
    have hnd' : (l.map Item.id).Nodup := by
      rw [List.map_cons] at hnd
      exact (List.nodup_cons.mp hnd).2
    have hnotmem : a.id ∉ l.map Item.id := by
      rw [List.map_cons] at hnd
      exact (List.nodup_cons.mp hnd).1
    have hnomem : a.id ∉ S.map Item.id := fun hmem =>
      hnotmem ((hsub.map Item.id).subset hmem)
    rw [List.filter_cons, if_neg (by simpa using hnomem)]
    exact ih hnd'
  | @cons₂ S l a hsub ih =>
    have hnd' : (l.map Item.id).Nodup := by
      rw [List.map_cons] at hnd
      exact (List.nodup_cons.mp hnd).2
    have hnotmem : a.id ∉ l.map Item.id := by
      rw [List.map_cons] at hnd
      exact (List.nodup_cons.mp hnd).1
    rw [List.filter_cons, if_pos (by simp)]
    congr 1
    rw [show (a :: S).map Item.id = a.id :: S.map Item.id from rfl]
    rw [List.filter_congr (fun x hx => ?_)]
    · exact ih hnd'
    · have hxid : x.id ≠ a.id := fun heq =>
        hnotmem (heq ▸ List.mem_map_of_mem Item.id hx)
      simp [List.mem_cons, hxid]

/-!
## Concrete inputs used by witnesses and by the repository's own test
-/

/-- The items of test T1 in `runKnapsackTests`. -/
def itemsT1 : List Item :=
  [⟨"a", "A", 1, 1, "🧪"⟩, ⟨"b", "B", 2, 6, "💎"⟩,
   ⟨"c", "C", 5, 18, "🚀"⟩, ⟨"d", "D", 6, 22, "🎮"⟩]

/-- Two items where including the second ties exactly with excluding it. -/
def tieItems : List Item := [⟨"a", "A", 1, 5, "🧪"⟩, ⟨"b", "B", 1, 5, "💎"⟩]

/-- A zero-weight item of positive value: legal under the documented
preconditions (`weight ≥ 0`). -/
def zeroWeightItem : Item := ⟨"z", "Z", 0, 5, "🌟"⟩

/-!
## Claim theorems
-/

/-- C1: for every list of items (non-negative integer weights and
values) and every capacity, `solveKnapsack(items, capacity).bestValue`
is the maximum total value over all subsets of the items whose total
weight is at most the capacity, each item used at most once.  (Proved
without needing the distinct-ids assumption.) -/
theorem solveKnapsack_bestValue_optimal (items : List Item) (cap : Nat) :
    (solveKnapsack items cap).bestValue = maxFeasibleValue items cap := by
  show ((buildTable items cap).getD items.length []).getD cap 0 = _
  rw [buildTable_getD items (le_refl _) (le_refl _),
    dpVal_eq_maxFeasibleValue items (le_refl _) cap, List.take_length]

/-- C2: for `i ≤ n` and `c ≤ capacity`, cell `table[i][c]` of the
returned table is the optimal value over subsets of the first `i` items
under budget `c`, and `bestValue` is `table[n][capacity]`. -/
theorem solveKnapsack_table_cells (items : List Item) (cap : Nat) {i c : Nat}
    (hi : i ≤ items.length) (hc : c ≤ cap) :
    (((solveKnapsack items cap).table.getD i []).getD c 0
        = maxFeasibleValue (items.take i) c)
    ∧ (solveKnapsack items cap).bestValue
        = (((solveKnapsack items cap).table.getD items.length []).getD cap 0) := by
  constructor
  · show ((buildTable items cap).getD i []).getD c 0 = _
    rw [buildTable_getD items hi hc, dpVal_eq_maxFeasibleValue items hi c]
  · rfl

/-- Witness for C2 at the repository's own test input, `i = 2`, `c = 3`. -/
theorem solveKnapsack_table_cells_witness :
    2 ≤ itemsT1.length ∧ 3 ≤ 7
    ∧ ((((solveKnapsack itemsT1 7).table.getD 2 []).getD 3 0
          = maxFeasibleValue (itemsT1.take 2) 3)
        ∧ (solveKnapsack itemsT1 7).bestValue
            = (((solveKnapsack itemsT1 7).table.getD itemsT1.length []).getD 7 0)) :=
  ⟨by decide, by decide, solveKnapsack_table_cells itemsT1 7 (by decide) (by decide)⟩

/-- C3: with pairwise-distinct ids, the returned `chosenIds` names a
valid 0-1 selection: summing the weights of the items whose id was
chosen stays within the capacity, and summing their values gives
exactly `bestValue`. -/
theorem solveKnapsack_selection_valid (items : List Item) (cap : Nat)
    (hnd : (items.map Item.id).Nodup) :
    chosenWeight items (solveKnapsack items cap).chosenIds ≤ cap
    ∧ chosenValue items (solveKnapsack items cap).chosenIds
        = (solveKnapsack items cap).bestValue := by
  have hwalk : (solveKnapsack items cap).chosenIds
      = insertionDedup ((chosenItems items items.length cap).map Item.id) := by
    show insertionDedup (tableWalk items (buildTable items cap) items.length cap) = _
    rw [tableWalk_eq_chosenItems items cap items.length (le_refl _) cap (le_refl _)]
  have hsub : chosenItems items items.length cap <+ items := by
    have := chosenItems_sublist items items.length (le_refl _) cap
    simpa [List.take_length] using this
  have hdedup : items.filter (fun it =>
        decide (it.id ∈ insertionDedup ((chosenItems items items.length cap).map Item.id)))
      = items.filter (fun it =>
        decide (it.id ∈ (chosenItems items items.length cap).map Item.id)) := by
    apply List.filter_congr
    intro it _
    simp [mem_insertionDedup]
  have hfilter := filter_mem_ids items hnd hsub
  rcases chosenItems_spec items items.length cap with ⟨hw, hv⟩
  constructor
  · rw [chosenWeight, hwalk, hdedup, hfilter]
    exact hw
  · rw [chosenValue, hwalk, hdedup, hfilter, hv]
    show _ = ((buildTable items cap).getD items.length []).getD cap 0
    rw [buildTable_getD items (le_refl _) (le_refl _)]

/-- Witness for C3 at the repository's own test input. -/
theorem solveKnapsack_selection_valid_witness :
    (itemsT1.map Item.id).Nodup
    ∧ (chosenWeight itemsT1 (solveKnapsack itemsT1 7).chosenIds ≤ 7
        ∧ chosenValue itemsT1 (solveKnapsack itemsT1 7).chosenIds
            = (solveKnapsack itemsT1 7).bestValue) :=
  ⟨by decide, solveKnapsack_selection_valid itemsT1 7 (by decide)⟩

/-- C4: the returned `chosenIds` is exactly the backward walk through
the table (item `i+1` recorded iff its cell differs from the cell
above, the budget then dropping by its weight); and whenever including
an item ties exactly with excluding it, the walk excludes it (the cell
equals the cell above, so the condition is false and the residual
budget is unchanged). -/
theorem solveKnapsack_backtrace_prefers_exclusion (items : List Item) (cap : Nat) :
    (solveKnapsack items cap).chosenIds
        = insertionDedup ((chosenItems items items.length cap).map Item.id)
    ∧ ∀ i c, (items.getD i default).weight ≤ c →
        dpVal items i (c - (items.getD i default).weight) + (items.getD i default).value
          = dpVal items i c →
        chosenItems items (i + 1) c = chosenItems items i c := by
  constructor
  · show insertionDedup (tableWalk items (buildTable items cap) items.length cap) = _
    rw [tableWalk_eq_chosenItems items cap items.length (le_refl _) cap (le_refl _)]
  · intro i c hw htie
    have heq : dpVal items (i + 1) c = dpVal items i c := by
      rw [dpVal_succ, if_pos hw, htie, max_self]
    rw [chosenItems_succ, if_neg (by simpa using heq)]

/-- Witness for C4: in `tieItems`, including item `b` at budget 1 ties
exactly with excluding it, and the walk excludes it. -/
theorem solveKnapsack_backtrace_prefers_exclusion_witness :
    (tieItems.getD 1 default).weight ≤ 1
    ∧ dpVal tieItems 1 (1 - (tieItems.getD 1 default).weight) + (tieItems.getD 1 default).value
        = dpVal tieItems 1 1
    ∧ chosenItems tieItems 2 1 = chosenItems tieItems 1 1 :=
  ⟨by decide, by decide,
    (solveKnapsack_backtrace_prefers_exclusion tieItems 1).2 1 1 (by decide) (by decide)⟩

/-- C5: for fixed items, `bestValue` is monotone in the capacity. -/
theorem solveKnapsack_bestValue_mono_capacity (items : List Item) {c₁ c₂ : Nat}
    (h : c₁ ≤ c₂) :
    (solveKnapsack items c₁).bestValue ≤ (solveKnapsack items c₂).bestValue := by
  show ((buildTable items c₁).getD items.length []).getD c₁ 0
      ≤ ((buildTable items c₂).getD items.length []).getD c₂ 0
  rw [buildTable_getD items (le_refl _) (le_refl _),
    buildTable_getD items (le_refl _) (le_refl _)]
  exact dpVal_mono_cap items items.length h

/-- Witness for C5 at the repository's own test input, `3 ≤ 7`. -/
theorem solveKnapsack_bestValue_mono_capacity_witness :
    3 ≤ 7 ∧ (solveKnapsack itemsT1 3).bestValue ≤ (solveKnapsack itemsT1 7).bestValue :=
  ⟨by decide, solveKnapsack_bestValue_mono_capacity itemsT1 (by decide)⟩

/-- C6: appending one more item never decreases `bestValue` at a fixed
capacity. -/
theorem solveKnapsack_bestValue_mono_items (items : List Item) (extra : Item) (cap : Nat) :
    (solveKnapsack items cap).bestValue ≤ (solveKnapsack (items ++ [extra]) cap).bestValue := by
  show ((buildTable items cap).getD items.length []).getD cap 0
      ≤ ((buildTable (items ++ [extra]) cap).getD (items ++ [extra]).length []).getD cap 0
  rw [buildTable_getD items (le_refl _) (le_refl _),
    buildTable_getD (items ++ [extra]) (le_refl _) (le_refl _)]
  have hlen : (items ++ [extra]).length = items.length + 1 := by simp
  rw [hlen]
  calc dpVal items items.length cap
      = dpVal (items ++ [extra]) items.length cap :=
        (dpVal_append items [extra] items.length (le_refl _) cap).symm
    _ ≤ dpVal (items ++ [extra]) (items.length + 1) cap := dpVal_le_succ _ _ _

/-- With every weight strictly positive, no item fits in budget 0, so
every cell of column 0 is 0. -/
theorem dpVal_zero_cap (items : List Item) (hw : ∀ it ∈ items, 0 < it.weight) :
    ∀ i, i ≤ items.length → dpVal items i 0 = 0 := by
  intro i
  induction i with
  | zero => intro _; rfl
  | succ i ih =>
    intro hi
    have hilt : i < items.length := hi
    have hmem : items.getD i default ∈ items := by
      simp only [List.getD_eq_getElem?_getD, List.getElem?_eq_getElem hilt]
      exact List.getElem_mem hilt
    have hpos : 0 < (items.getD i default).weight := hw _ hmem
    rw [dpVal_succ, if_neg (by omega)]
    exact ih (Nat.le_of_succ_le hi)

theorem chosenItems_zero_cap (items : List Item) (hw : ∀ it ∈ items, 0 < it.weight) :
    ∀ i, i ≤ items.length → chosenItems items i 0 = [] := by
  intro i
  induction i with
  | zero => intro _; rfl
  | succ i ih =>
    intro hi
    have heq : dpVal items (i + 1) 0 = dpVal items i 0 := by
      rw [dpVal_zero_cap items hw (i + 1) hi,
        dpVal_zero_cap items hw i (Nat.le_of_succ_le hi)]
    rw [chosenItems_succ, if_neg (by simpa using heq)]
    exact ih (Nat.le_of_succ_le hi)

/-- C7 counterexample: the claim fails as stated.  `zeroWeightItem` has
weight 0 and value 5 — legal under the documented preconditions — yet
at capacity 0 the solver returns `bestValue = 5` with the item chosen,
not `0` with an empty selection (and the corresponding column-0 cell is
5, not 0). -/
theorem solveKnapsack_zero_capacity_counterexample :
    ¬ ((solveKnapsack [zeroWeightItem] 0).bestValue = 0
        ∧ (solveKnapsack [zeroWeightItem] 0).chosenIds = []) := by decide

/-- C7 amended: for every input, row 0 of the returned table is all
zeros; and when every weight is strictly positive, capacity 0 yields
`bestValue = 0` with empty `chosenIds`, and column 0 of the table is
all zeros. -/
theorem solveKnapsack_zero_capacity (items : List Item) (cap : Nat) :
    (∀ c, c ≤ cap → ((solveKnapsack items cap).table.getD 0 []).getD c 0 = 0)
    ∧ ((∀ it ∈ items, 0 < it.weight) →
        (solveKnapsack items 0).bestValue = 0
        ∧ (solveKnapsack items 0).chosenIds = []
        ∧ (∀ i, i ≤ items.length →
            ((solveKnapsack items cap).table.getD i []).getD 0 0 = 0)) := by
  constructor
  · intro c hc
    show ((buildTable items cap).getD 0 []).getD c 0 = 0
    rw [buildTable_getD items (Nat.zero_le _) hc]
    rfl
  · intro hw
    refine ⟨?_, ?_, ?_⟩
    · show ((buildTable items 0).getD items.length []).getD 0 0 = 0
      rw [buildTable_getD items (le_refl _) (le_refl _)]
      exact dpVal_zero_cap items hw items.length (le_refl _)
    · show insertionDedup (tableWalk items (buildTable items 0) items.length 0) = []
      rw [tableWalk_eq_chosenItems items 0 items.length (le_refl _) 0 (le_refl _)]
      rw [chosenItems_zero_cap items hw items.length (le_refl _)]
      rfl
    · intro i hi
      show ((buildTable items cap).getD i []).getD 0 0 = 0
      rw [buildTable_getD items hi (Nat.zero_le _)]
      exact dpVal_zero_cap items hw i hi

/-- Witness for the amended C7 at the repository's own test input
(all weights positive), exercising row 0 at `c = 3` and column 0 at
`i = 2`. -/
theorem solveKnapsack_zero_capacity_witness :
    ((solveKnapsack itemsT1 7).table.getD 0 []).getD 3 0 = 0
    ∧ (∀ it ∈ itemsT1, 0 < it.weight)
    ∧ ((solveKnapsack itemsT1 0).bestValue = 0
        ∧ (solveKnapsack itemsT1 0).chosenIds = []
        ∧ ((solveKnapsack itemsT1 7).table.getD 2 []).getD 0 0 = 0) :=
  ⟨(solveKnapsack_zero_capacity itemsT1 7).1 3 (by decide),
   by decide,
   ((solveKnapsack_zero_capacity itemsT1 7).2 (by decide)).1,
   ((solveKnapsack_zero_capacity itemsT1 7).2 (by decide)).2.1,
   ((solveKnapsack_zero_capacity itemsT1 7).2 (by decide)).2.2 2 (by decide)⟩

/-- C8: on the test input A(1,1), B(2,6), C(5,18), D(6,22) with
capacity 7, the solver returns `bestValue = 24` and the chosen ids sum
to value 24. -/
theorem solveKnapsack_test_scenario :
    (solveKnapsack itemsT1 7).bestValue = 24
    ∧ chosenValue itemsT1 (solveKnapsack itemsT1 7).chosenIds = 24 := by decide

/-!
## C9: every access the source makes is in bounds

`solveKnapsackChecked` re-runs the algorithm with every array read
checked (`l[k]?`, failing with `none` when out of range, where the
source indexes `dp[i][c]`, `dp[i-1][c-w]`, `items[i-1]`).  Proving it
returns `some` of the unchecked result shows the source never reads a
hole: in particular `dp[i-1][c-w]` is read only under `w ≤ c`, and
`dp[n][capacity]` is a defined cell.
-/

def stepRowChecked (prev : List Nat) (it : Item) (cap : Nat) : Option (List Nat) :=
  (List.range (cap + 1)).mapM (fun c =>
    if it.weight ≤ c then
      prev[c]?.bind fun a =>
        (prev[c - it.weight]?).bind fun b =>
          some (max a (b + it.value))
    else prev[c]?)

def tableRowsChecked (cap : Nat) : List Item → List Nat → Option (List (List Nat))
  | [], prev => some [prev]
  | it :: rest, prev =>
    (stepRowChecked prev it cap).bind fun nxt =>
      (tableRowsChecked cap rest nxt).bind fun tl =>
        some (prev :: tl)

def tableWalkChecked (items : List Item) (table : List (List Nat)) :
    Nat → Nat → Option (List String)
  | 0, _ => some []
  | i + 1, c =>
    items[i]?.bind fun it =>
      (table[i + 1]?).bind fun row1 =>
        table[i]?.bind fun row0 =>
          row1[c]?.bind fun a =>
            row0[c]?.bind fun b =>
              if a ≠ b then
                (tableWalkChecked items table i (c - it.weight)).bind fun rest =>
                  some (rest ++ [it.id])
              else
                tableWalkChecked items table i c

def solveKnapsackChecked (items : List Item) (cap : Nat) : Option SolveResult :=
  (tableRowsChecked cap items (List.replicate (cap + 1) 0)).bind fun dp =>
    (dp[items.length]?).bind fun lastRow =>
      lastRow[cap]?.bind fun best =>
        (tableWalkChecked items dp items.length cap).bind fun chosen =>
          some ⟨best, insertionDedup chosen, dp⟩

theorem getElem?_eq_some_getD {l : List Nat} {n : Nat} (h : n < l.length) :
    l[n]? = some (l.getD n 0) := by
  simp [List.getElem?_eq_getElem h]

theorem mapM_eq_some_map {α β : Type} (f : α → Option β) (g : α → β) :
    ∀ l : List α, (∀ a ∈ l, f a = some (g a)) → l.mapM f = some (l.map g) := by
  intro l
  induction l with
  | nil => intro _; rfl
  | cons a l ih =>
    intro h
    rw [List.mapM_cons, h a (List.mem_cons_self _ _), ih (fun x hx => h x (List.mem_cons_of_mem _ hx))]
    rfl

theorem stepRowChecked_eq (prev : List Nat) (it : Item) (cap : Nat)
    (hlen : prev.length = cap + 1) :
    stepRowChecked prev it cap = some (stepRow prev it cap) := by
  rw [stepRowChecked, stepRow]
  apply mapM_eq_some_map
  intro c hc
  have hclt : c < cap + 1 := by simpa using List.mem_range.mp hc
  have hc1 : c < prev.length := by omega
  have hc2 : c - it.weight < prev.length := by omega
  by_cases hw : it.weight ≤ c
  · rw [if_pos hw, if_pos hw, getElem?_eq_some_getD hc1, getElem?_eq_some_getD hc2]
    rfl
  · rw [if_neg hw, if_neg hw, getElem?_eq_some_getD hc1]

theorem tableRowsChecked_eq (cap : Nat) :
    ∀ (l : List Item) (prev : List Nat), prev.length = cap + 1 →
      tableRowsChecked cap l prev = some (tableRows cap l prev) := by
  intro l
  induction l with
  | nil => intro prev _; rfl
  | cons it rest ih =>
    intro prev hlen
    rw [tableRowsChecked, stepRowChecked_eq prev it cap hlen]
    rw [show tableRows cap (it :: rest) prev
          = prev :: tableRows cap rest (stepRow prev it cap) from rfl]
    rw [Option.some_bind, ih (stepRow prev it cap) (stepRow_length prev it cap)]
    rfl

theorem tableWalkChecked_eq (items : List Item) (cap : Nat) :
    ∀ i, i ≤ items.length → ∀ c, c ≤ cap →
      tableWalkChecked items (buildTable items cap) i c
        = some (tableWalk items (buildTable items cap) i c) := by
  intro i
  induction i with
  | zero => intro _ c _; rfl
  | succ i ih =>
    intro hi c hc
    have hi' : i ≤ items.length := Nat.le_of_succ_le hi
    have hilt : i < items.length := hi
    have hitem : items[i]? = some (items.getD i default) := by
      simp [List.getElem?_eq_getElem hilt]
    have htlen : (buildTable items cap).length = items.length + 1 :=
      buildTable_length items cap
    have hrow1 : (buildTable items cap)[i + 1]?
        = some ((buildTable items cap).getD (i + 1) []) := by
      have : i + 1 < (buildTable items cap).length := by omega
      simp [List.getElem?_eq_getElem this]
    have hrow0 : (buildTable items cap)[i]?
        = some ((buildTable items cap).getD i []) := by
      have : i < (buildTable items cap).length := by omega
      simp [List.getElem?_eq_getElem this]
    have hcell1 : ((buildTable items cap).getD (i + 1) [])[c]?
        = some (((buildTable items cap).getD (i + 1) []).getD c 0) :=
      getElem?_eq_some_getD (by rw [buildTable_row_length items cap hi]; omega)
    have hcell0 : ((buildTable items cap).getD i [])[c]?
        = some (((buildTable items cap).getD i []).getD c 0) :=
      getElem?_eq_some_getD (by rw [buildTable_row_length items cap hi']; omega)
    rw [tableWalkChecked, hitem, Option.some_bind, hrow1, Option.some_bind, hrow0,
      Option.some_bind, hcell1, Option.some_bind, hcell0, Option.some_bind]
    rw [show tableWalk items (buildTable items cap) (i + 1) c
          = if ((buildTable items cap).getD (i + 1) []).getD c 0
                ≠ ((buildTable items cap).getD i []).getD c 0 then
              tableWalk items (buildTable items cap) i (c - (items.getD i default).weight)
                ++ [(items.getD i default).id]
            else tableWalk items (buildTable items cap) i c from rfl]
    by_cases h : ((buildTable items cap).getD (i + 1) []).getD c 0
        ≠ ((buildTable items cap).getD i []).getD c 0
    · rw [if_pos h, if_pos h,
        ih hi' (c - (items.getD i default).weight) (le_trans (Nat.sub_le _ _) hc)]
      rfl
    · rw [if_neg h, if_neg h]
      exact ih hi' c hc

/-- C9: for every input (capacity and all weights/values non-negative,
as `Nat` enforces), the solver completes normally with every array
access in bounds: the fully bounds-checked rerun returns `some` of the
unchecked result, so no read — including `dp[i-1][c-w]`, performed only
under `w ≤ c` — falls outside the table, and `dp[n][capacity]` is a
defined cell. -/
theorem solveKnapsack_safe (items : List Item) (cap : Nat) :
    solveKnapsackChecked items cap = some (solveKnapsack items cap) := by
  rw [solveKnapsackChecked,
    tableRowsChecked_eq cap items (List.replicate (cap + 1) 0) (by simp),
    Option.some_bind]
  have hrow : (buildTable items cap)[items.length]?
      = some ((buildTable items cap).getD items.length []) := by
    have : items.length < (buildTable items cap).length := by
      rw [buildTable_length]; omega
    simp [List.getElem?_eq_getElem this]
  rw [show tableRows cap items (List.replicate (cap + 1) 0) = buildTable items cap from rfl,
    hrow, Option.some_bind,
    getElem?_eq_some_getD (by rw [buildTable_row_length items cap (le_refl _)]; omega),
    Option.some_bind,
    tableWalkChecked_eq items cap items.length (le_refl _) cap (le_refl _),
    Option.some_bind]
  rfl

/-!
## C10: no precondition validation

The source performs no input validation whatsoever: there is no throw,
no rejection branch, and no error type.  To settle the claim on inputs
that *violate* the documented preconditions (negative weights or
values, duplicate ids), this model widens weights and values to `Int`
and follows JavaScript semantics for what then happens: an index
outside an array reads `undefined`, `undefined + v` is `NaN`,
`Math.max` with `NaN` (or `undefined`) is `NaN`, and `x !== y` is
`false` for two `undefined`s, `true` whenever either side is `NaN`.
The solver still runs to completion and returns a full result.
-/

/-- A JavaScript value as it can appear in a `dp` cell or comparison:
a number, `NaN`, or `undefined`. -/
inductive JVal where
  | num (q : Int)
  | nan
  | undef
deriving Repr, DecidableEq

instance : Inhabited JVal := ⟨JVal.undef⟩

/-- JS `x + v` on a cell read: `undefined + v` and `NaN + v` are `NaN`. -/
def jadd (x : JVal) (v : Int) : JVal :=
  match x with
  | .num a => .num (a + v)
  | _ => .nan

/-- JS `Math.max`: any non-number argument is coerced to `NaN`, and
`Math.max` with a `NaN` argument is `NaN`. -/
def jmax (x y : JVal) : JVal :=
  match x, y with
  | .num a, .num b => .num (max a b)
  | _, _ => .nan

/-- JS strict inequality `x !== y` on the values that can occur. -/
def jneq (x y : JVal) : Bool :=
  match x, y with
  | .num a, .num b => decide (a ≠ b)
  | .undef, .undef => false
  | _, _ => true

/-- JS array read `row[k]`: `undefined` when `k` is negative or past
the end. -/
def jread (row : List JVal) (k : Int) : JVal :=
  if 0 ≤ k then (row[k.toNat]?).getD .undef else .undef

structure ItemJS where
  id : String
  name : String
  weight : Int
  value : Int
  emoji : String
deriving Repr, DecidableEq

instance : Inhabited ItemJS := ⟨⟨"", "", 0, 0, ""⟩⟩

/-- The inner fill loop under JS semantics, `Int` weight and value. -/
def stepRowJS (prev : List JVal) (w v : Int) (cap : Nat) : List JVal :=
  (List.range (cap + 1)).map (fun (c : Nat) =>
    if w ≤ (c : Int) then jmax (jread prev (c : Int)) (jadd (jread prev ((c : Int) - w)) v)
    else jread prev (c : Int))

def tableRowsJS (cap : Nat) : List ItemJS → List JVal → List (List JVal)
  | [], prev => [prev]
  | it :: rest, prev => prev :: tableRowsJS cap rest (stepRowJS prev it.weight it.value cap)

def buildTableJS (items : List ItemJS) (cap : Nat) : List (List JVal) :=
  tableRowsJS cap items (List.replicate (cap + 1) (JVal.num 0))

/-- The reconstruction under JS semantics: the residual budget is an
`Int` (a negative weight would raise it past the capacity), cells are
compared with `!==`. -/
def tableWalkJS (items : List ItemJS) (table : List (List JVal)) : Nat → Int → List String
  | 0, _ => []
  | i + 1, c =>
    let it := items.getD i default
    if jneq (jread (table.getD (i + 1) []) c) (jread (table.getD i []) c) then
      tableWalkJS items table i (c - it.weight) ++ [it.id]
    else
      tableWalkJS items table i c

structure SolveResultJS where
  bestValue : JVal
  chosenIds : List String
  table : List (List JVal)
deriving Repr, DecidableEq

/-- `solveKnapsack` under JS semantics, on arbitrary (possibly
precondition-violating) integer weights and values and arbitrary ids. -/
def solveKnapsackJS (items : List ItemJS) (capacity : Nat) : SolveResultJS :=
  let n := items.length
  let dp := buildTableJS items capacity
  { bestValue := jread (dp.getD n []) (capacity : Int)
    chosenIds := insertionDedup (tableWalkJS items dp n (capacity : Int))
    table := dp }

theorem stepRowJS_length (prev : List JVal) (w v : Int) (cap : Nat) :
    (stepRowJS prev w v cap).length = cap + 1 := by
  rw [stepRowJS, List.length_map, List.length_range]

theorem tableRowsJS_length (cap : Nat) :
    ∀ (l : List ItemJS) (prev : List JVal),
      (tableRowsJS cap l prev).length = l.length + 1 := by
  intro l
  induction l with
  | nil => intro prev; rfl
  | cons it rest ih => intro prev; simp [tableRowsJS, ih]

theorem tableRowsJS_row_length (cap : Nat) :
    ∀ (l : List ItemJS) (prev : List JVal), prev.length = cap + 1 →
      ∀ row ∈ tableRowsJS cap l prev, row.length = cap + 1 := by
  intro l
  induction l with
  | nil =>
    intro prev hprev row hrow
    rw [show tableRowsJS cap [] prev = [prev] from rfl] at hrow
    simp only [List.mem_singleton] at hrow
    rw [hrow]
    exact hprev
  | cons it rest ih =>
    intro prev hprev row hrow
    rw [show tableRowsJS cap (it :: rest) prev
          = prev :: tableRowsJS cap rest (stepRowJS prev it.weight it.value cap) from rfl] at hrow
    rcases List.mem_cons.mp hrow with rfl | hrow'
    · exact hprev
    · exact ih (stepRowJS prev it.weight it.value cap)
        (stepRowJS_length prev it.weight it.value cap) row hrow'

/-- An input violating the documented preconditions: a negative
weight, a negative value, and duplicate ids. -/
def badItemsJS : List ItemJS := [⟨"d", "D", -1, 5, "x"⟩, ⟨"d", "E", 2, -3, "y"⟩]

/-- C10: the solver performs no precondition validation and raises no
rejection of any kind: for every input — including negative weights or
values and duplicate ids — it runs the same recurrence to completion
and returns a full `(n+1) × (capacity+1)` table; on the concrete
violating input the out-of-range reads surface as `NaN` cells and a
returned `NaN` best value, never as an error. -/
theorem solveKnapsackJS_no_validation :
    (∀ (items : List ItemJS) (cap : Nat),
        (solveKnapsackJS items cap).table.length = items.length + 1
        ∧ ∀ row ∈ (solveKnapsackJS items cap).table, row.length = cap + 1)
    ∧ solveKnapsackJS badItemsJS 2 =
        { bestValue := JVal.nan
          chosenIds := ["d"]
          table := [[JVal.num 0, JVal.num 0, JVal.num 0],
                    [JVal.num 5, JVal.num 5, JVal.nan],
                    [JVal.num 5, JVal.num 5, JVal.nan]] } := by
  constructor
  · intro items cap
    constructor
    · show (buildTableJS items cap).length = items.length + 1
      rw [buildTableJS, tableRowsJS_length]
    · intro row hrow
      exact tableRowsJS_row_length cap items (List.replicate (cap + 1) (JVal.num 0))
        (by simp) row hrow
  · decide

/-- Witness for C10 at the violating input: the returned table is full. -/
theorem solveKnapsackJS_no_validation_witness :
    (solveKnapsackJS badItemsJS 2).table.length = badItemsJS.length + 1
    ∧ ((solveKnapsackJS badItemsJS 2).table.getD 1 []).length = 2 + 1 :=
  ⟨(solveKnapsackJS_no_validation.1 badItemsJS 2).1,
   (solveKnapsackJS_no_validation.1 badItemsJS 2).2 _ (by decide)⟩
